import Mathlib

/-!
# Verification of the job-radar filtering / scoring / dedup / flood-control pipeline

Shallow embedding of `src/job_radar.py`. Text is modelled as `List Nat`
(Unicode code points, as Python strings are sequences of code points);
string literals are converted through `lit`. Timestamps (Python floats
from `time.time()`) are modelled as rationals. The pure core functions
(`norm`, `location_priority`, `score_job`, the seen-store operations,
the sort and the company-quota filter from `main`) are translated
directly from the source.
-/

namespace JobRadar

/-- Text as a sequence of Unicode code points (a Python `str`). -/
abbrev Str := List Nat

/-- Converts a Lean string literal to its code-point sequence. -/
def lit (s : String) : Str := s.data.map Char.toNat

/-- Python's `\s` / `str.strip` whitespace class (ASCII part):
space, tab, newline, carriage return, vertical tab, form feed. -/
def isSpace (c : Nat) : Bool :=
  decide (c = 32 ∨ c = 9 ∨ c = 10 ∨ c = 13 ∨ c = 11 ∨ c = 12)

/-- `str.lower` on a single code point (ASCII range, the range exercised
by the script's keyword tables). -/
def lowerChar (c : Nat) : Nat := if 65 ≤ c ∧ c ≤ 90 then c + 32 else c

/-- `str.lower` on a whole string. -/
def lowerStr (s : Str) : Str := s.map lowerChar

/-- `str.strip()`: drop leading and trailing whitespace. -/
def pstrip (s : Str) : Str :=
  ((s.dropWhile isSpace).reverse.dropWhile isSpace).reverse

/-- `re.sub(r"\s+", " ", ·)`: every maximal run of whitespace becomes a
single space (code point 32). -/
def collapse : Str → Str
  | [] => []
  | [c] => [if isSpace c then 32 else c]
  | c₁ :: c₂ :: rest =>
    if isSpace c₁ && isSpace c₂ then collapse (c₂ :: rest)
    else (if isSpace c₁ then 32 else c₁) :: collapse (c₂ :: rest)

/-- `norm` from job_radar.py: `re.sub(r"\s+", " ", (s or "").strip().lower())`. -/
def norm (s : Str) : Str := collapse (lowerStr (pstrip s))

/-- Python's substring test `needle in hay`. -/
def containsStr : Str → Str → Bool
  | [], needle => needle.isEmpty
  | hay@(_ :: t), needle => needle.isPrefixOf hay || containsStr t needle

/-- Python regex `\w` (ASCII part): letters, digits, underscore. -/
def isWordChar (c : Nat) : Bool :=
  decide ((97 ≤ c ∧ c ≤ 122) ∨ (65 ≤ c ∧ c ≤ 90) ∨ (48 ≤ c ∧ c ≤ 57) ∨ c = 95)

/-- Whether position `i` of `s` holds a word character (out of range: no). -/
def wcAt (s : Str) (i : Nat) : Bool :=
  match s.get? i with
  | some c => isWordChar c
  | none => false

/-- Python regex `\b` (word boundary) at offset `i` of `s`. -/
def hasWordBoundary (s : Str) (i : Nat) : Bool :=
  if i = 0 then wcAt s 0 else wcAt s (i - 1) != wcAt s i

/-- The third group `(\b|\)|\s)` of the state-code pattern, at offset `j`. -/
def stateSuffixOk (loc : Str) (j : Nat) : Bool :=
  hasWordBoundary loc j ||
    (match loc.get? j with
     | some c => c = 41 || isSpace c   -- 41 = ')'
     | none => false)

/-- A match of `re.search(rf"(\b|,|\()({st})(\b|\)|\s)", loc)` starting at
offset `i`: the first group either is a zero-width word boundary or
consumes a `,` (44) or `(` (40). -/
def stateRegexMatchAt (st loc : Str) (i : Nat) : Bool :=
  (hasWordBoundary loc i && st.isPrefixOf (loc.drop i)
    && stateSuffixOk loc (i + st.length)) ||
  (match loc.drop i with
   | c :: tail => (c = 44 || c = 40) && st.isPrefixOf tail
       && stateSuffixOk loc (i + 1 + st.length)
   | [] => false)

/-- `re.search` of the state-code pattern anywhere in `loc`. -/
def stateHit (st loc : Str) : Bool :=
  (List.range (loc.length + 1)).any (stateRegexMatchAt st loc)

/-! ## Keyword tables (CONFIG section of job_radar.py) -/

def US_KEYWORDS : List Str :=
  [lit "united states", lit "united states of america", lit "u.s.", lit "u.s.a", lit "usa",
   lit "remote - us", lit "remote (us)", lit "remote, us", lit "us remote", lit "us-only",
   lit "us only"]

def CALIFORNIA_KEYWORDS : List Str :=
  [lit "california", lit "ca", lit "san francisco", lit "sf", lit "bay area",
   lit "los angeles", lit "la", lit "santa clara", lit "palo alto",
   lit "mountain view", lit "sunnyvale", lit "san jose", lit "redwood city",
   lit "san mateo", lit "menlo park", lit "cupertino", lit "irvine", lit "san diego"]

def US_STATE_ABBR : List Str :=
  [lit "al", lit "ak", lit "az", lit "ar", lit "ca", lit "co", lit "ct", lit "de",
   lit "fl", lit "ga", lit "hi", lit "id", lit "il", lit "in", lit "ia", lit "ks",
   lit "ky", lit "la", lit "me", lit "md", lit "ma", lit "mi", lit "mn", lit "ms",
   lit "mo", lit "mt", lit "ne", lit "nv", lit "nh", lit "nj", lit "nm", lit "ny",
   lit "nc", lit "nd", lit "oh", lit "ok", lit "or", lit "pa", lit "ri", lit "sc",
   lit "sd", lit "tn", lit "tx", lit "ut", lit "vt", lit "va", lit "wa", lit "wv",
   lit "wi", lit "wy", lit "dc"]

def TARGET_COMPANY_NAMES : List Str :=
  [lit "Adobe", lit "Affirm", lit "Airbnb", lit "Amazon", lit "Anthropic", lit "Apple",
   lit "Atlassian", lit "Brex", lit "Chime", lit "Cisco", lit "Cloudflare",
   lit "Coinbase", lit "Databricks", lit "Datadog", lit "Discord", lit "DocuSign",
   lit "DoorDash", lit "Duolingo", lit "Google", lit "Elastic", lit "Figma",
   lit "Janestreet", lit "Jane Street", lit "LinkedIn", lit "Lyft", lit "Mathworks",
   lit "MathWorks", lit "Meta", lit "Microsoft", lit "Netflix",
   lit "Next Insurance", lit "Lemonade", lit "Nextdoor", lit "Notion", lit "Nvidia",
   lit "Okta", lit "Oracle", lit "OpenAI", lit "Palantir", lit "Pinterest",
   lit "Plaid", lit "Ramp", lit "Robinhood", lit "Roblox", lit "Scale AI",
   lit "Scopely", lit "Slack", lit "Splunk", lit "Snowflake", lit "SoFi",
   lit "Spotify", lit "Square", lit "Stripe", lit "Tesla", lit "Twilio", lit "Uber",
   lit "Unity", lit "Wayve", lit "Wealthfront", lit "Betterment", lit "Workday",
   lit "Zendesk"]

def KW_HIGH : List Str :=
  [lit "strategic finance", lit "finance strategy", lit "product finance",
   lit "business finance", lit "finance business partner",
   lit "corporate finance", lit "fp&a", lit "planning and analysis",
   lit "planning & analysis", lit "forecasting", lit "budgeting", lit "variance",
   lit "kpi", lit "operational finance", lit "commercial finance", lit "gtm finance",
   lit "go-to-market finance", lit "revenue finance",
   lit "pricing finance", lit "growth finance", lit "monetization finance",
   lit "gross margin", lit "unit economics", lit "cac", lit "ltv",
   lit "cohort", lit "retention", lit "contribution margin", lit "investment bank",
   lit "accounting", lit "technical accounting", lit "controllership",
   lit "controller", lit "close", lit "month-end", lit "sox", lit "audit",
   lit "corporate development", lit "corp dev", lit "m&a", lit "mergers",
   lit "acquisitions", lit "transaction", lit "transactions",
   lit "due diligence", lit "valuation", lit "lbo", lit "dcf",
   lit "investment analysis", lit "deal analysis", lit "investment bank",
   lit "investment banking",
   lit "private equity", lit "venture capital", lit "strategic investments",
   lit "integration", lit "post-merger", lit "pmi", lit "deal",
   lit "bizops", lit "business operations", lit "strategy & operations",
   lit "strategy and operations", lit "operating model",
   lit "business insights", lit "performance analytics", lit "planning analyst",
   lit "business analytics", lit "analytics strategy",
   lit "strategic planning", lit "s&o", lit "s&op", lit "sales ops",
   lit "revenue ops", lit "revops", lit "gtm strategy"]

def KW_MED : List Str :=
  [lit "financial analyst", lit "finance analyst", lit "finance manager",
   lit "finance associate", lit "strategy analyst", lit "strategy manager",
   lit "business analyst", lit "operations analyst", lit "revenue analyst",
   lit "pricing analyst", lit "growth analyst",
   lit "monetization", lit "pricing", lit "go-to-market", lit "gtm", lit "analytics",
   lit "sql", lit "etl", lit "dashboard", lit "reporting", lit "modeling",
   lit "budget", lit "forecast", lit "variance analysis", lit "data analysis",
   lit "data modeling", lit "metrics", lit "kpi reporting",
   lit "commercial", lit "market sizing", lit "biz strategy", lit "product strategy",
   lit "product ops", lit "program finance",
   lit "workload finance", lit "cloud finance", lit "infra finance",
   lit "data center finance"]

def NEGATIVE : List Str :=
  [lit "warehouse", lit "area manager", lit "night shift", lit "hourly", lit "driver",
   lit "fulfillment", lit "store associate", lit "retail",
   lit "manufacturing", lit "plant", lit "security guard", lit "nurse", lit "cna",
   lit "pharmacist", lit "call center", lit "armed"]

/-! ## Location classifier -/

/-- `is_ca` of `location_priority`: any California keyword occurs as a
substring of the (already normalized) location. -/
def isCA (loc : Str) : Bool := CALIFORNIA_KEYWORDS.any fun k => containsStr loc k

/-- `is_us` of `location_priority`: an explicit US keyword, a
word-boundary state-code hit, or a California hit. -/
def isUS (loc : Str) : Bool :=
  (US_KEYWORDS.any fun k => containsStr loc k) ||
    (US_STATE_ABBR.any fun st => stateHit st loc) || isCA loc

/-- `location_priority` from job_radar.py. -/
def location_priority (location : Str) : Int :=
  if norm location = [] then 8
  else if !isUS (norm location) && !containsStr (norm location) (lit "remote") then -999
  else if isCA (norm location) then 20
  else if containsStr (norm location) (lit "remote") then 12
  else 5

/-! ## Data model and scorer -/

/-- The `Job` dataclass. `posted_at` is an optional UTC epoch timestamp. -/
structure Job where
  source : Str
  company : Str
  title : Str
  location : Str
  posted_at : Option Int
  apply_url : Str
  description_snippet : Str
deriving DecidableEq

/-- `Job.uid`: the fingerprint. The script hashes the string
`source|company|title|apply_url` with sha256 and keeps 24 hex digits; the
hash step is modelled as the identity on the underlying fingerprint
string (the dedup logic only ever compares fingerprints for equality,
and hash collisions are outside the model). 124 is the code point of
the separator `|`. -/
def Job.uid (j : Job) : Str :=
  j.source ++ [124] ++ j.company ++ [124] ++ j.title ++ [124] ++ j.apply_url

/-- One keyword loop of `score_job`: for each keyword of `kws` found in
title `t` or snippet `d`, add the fixed weight `w` to the accumulator. -/
def keywordPass (w : Int) (kws : List Str) (t d : Str) (s : Int) : Int :=
  kws.foldl (fun acc kw => if containsStr t kw || containsStr d kw then acc + w else acc) s

/-- The company-boost loop of `score_job`: `+8` on the first target
company name contained in the normalized company, `break` afterwards. -/
def companyBoost (c : Str) (s : Int) : Int :=
  if TARGET_COMPANY_NAMES.any (fun name => containsStr c (norm name)) then s + 8 else s

/-- Title nudge of `score_job`: `"manager" in t` adds 2. -/
def nudgeManager (t : Str) (s : Int) : Int :=
  if containsStr t (lit "manager") then s + 2 else s

/-- Title nudge of `score_job`: `"senior" in t or t.startswith("sr")` adds 1. -/
def nudgeSenior (t : Str) (s : Int) : Int :=
  if containsStr t (lit "senior") || (lit "sr").isPrefixOf t then s + 1 else s

/-- Title nudge of `score_job`: `"intern" in t` subtracts 2. -/
def nudgeIntern (t : Str) (s : Int) : Int :=
  if containsStr t (lit "intern") then s - 2 else s

/-- The three title nudges of `score_job`, in program order. -/
def titleNudges (t : Str) (s : Int) : Int :=
  nudgeIntern t (nudgeSenior t (nudgeManager t s))

/-- `score_job` from job_radar.py. -/
def score_job (job : Job) : Int :=
  if NEGATIVE.any (fun bad =>
      containsStr (norm job.title) bad || containsStr (norm job.description_snippet) bad)
  then -999
  else if location_priority job.location < 0 then -999
  else
    titleNudges (norm job.title)
      (keywordPass 5 KW_MED (norm job.title) (norm job.description_snippet)
        (keywordPass 10 KW_HIGH (norm job.title) (norm job.description_snippet)
          (companyBoost (norm job.company) (location_priority job.location))))

/-! ## Seen store, ranking, flood control, pipeline (`main`) -/

/-- The persisted seen store: fingerprint → last-notified timestamp, as a
key/value sequence in Python dict insertion order. `time.time()` floats
are modelled as rationals. -/
abbrev Store := List (Str × ℚ)

/-- Python dict lookup `seen.get(uid)` / `uid in seen`. -/
def seenLookup : Store → Str → Option ℚ
  | [], _ => none
  | (k, v) :: r, u => if k = u then some v else seenLookup r u

/-- Python dict assignment `seen[uid] = ts`: update in place, else append. -/
def setKey : Store → Str → ℚ → Store
  | [], u, ts => [(u, ts)]
  | (k, v) :: r, u, ts => if k = u then (k, ts) :: r else (k, v) :: setKey r u ts

/-- The mark-seen loop of `main`: `for _, job in items: seen[job.uid()] = ts`. -/
def markAll (st : Store) (picked : List (Int × Job)) (ts : ℚ) : Store :=
  picked.foldl (fun acc it => setKey acc it.2.uid ts) st

/-- `sorted(seen.items(), key=lambda kv: kv[1], reverse=True)`: stable
sort by timestamp, descending (modelled by a stable insertion sort, as
Python's `sorted` is stable). -/
def storeDescending (s : Store) : Store :=
  s.insertionSort (fun a b => b.2 ≤ a.2)

/-- The pruning step of `main`:
`if len(seen) > 25000: seen = dict(sorted(...)[:25000])`. -/
def pruneSeen (s : Store) : Store :=
  if s.length > 25000 then (storeDescending s).take 25000 else s

/-- The recency filter `is_recent`: a missing timestamp passes; otherwise
the posting must be at or after the cutoff. -/
def isRecent (j : Job) (cutoff : Int) : Bool :=
  match j.posted_at with
  | none => true
  | some t => decide (cutoff ≤ t)

def MAX_EMAIL_ITEMS : Nat := 120

def MAX_PER_COMPANY_DEFAULT : Nat := 6

/-- The per-company cap table `COMPANY_CAPS`. -/
def COMPANY_CAPS : List (Str × Nat) :=
  [(lit "Amazon", 4), (lit "Google", 5), (lit "Microsoft", 3),
   (lit "Meta", 4), (lit "Apple", 3), (lit "Nvidia", 2)]

/-- Lookup in the cap table (exact key match, as Python `dict.get`). -/
def capLookup : List (Str × Nat) → Str → Option Nat
  | [], _ => none
  | (k, v) :: r, c => if k = c then some v else capLookup r c

/-- `COMPANY_CAPS.get(job.company, MAX_PER_COMPANY_DEFAULT)`. -/
def capFor (company : Str) : Nat :=
  (capLookup COMPANY_CAPS company).getD MAX_PER_COMPANY_DEFAULT

/-- `company_counts.get(job.company, 0)`. -/
def countFor : List (Str × Nat) → Str → Nat
  | [], _ => 0
  | (k, v) :: r, c => if k = c then v else countFor r c

/-- `company_counts[job.company] = n`. -/
def setCount : List (Str × Nat) → Str → Nat → List (Str × Nat)
  | [], c, n => [(c, n)]
  | (k, v) :: r, c, n => if k = c then (k, n) :: r else (k, v) :: setCount r c n

/-- The company-quota loop of `main`: skip a posting once its company is
at its cap, stop as soon as `MAX_EMAIL_ITEMS` postings are picked. -/
def floodGo (counts : List (Str × Nat)) (pickedLen : Nat) :
    List (Int × Job) → List (Int × Job)
  | [] => []
  | it :: rest =>
    if countFor counts it.2.company ≥ capFor it.2.company then
      floodGo counts pickedLen rest
    else if pickedLen + 1 ≥ MAX_EMAIL_ITEMS then [it]
    else it :: floodGo (setCount counts it.2.company (countFor counts it.2.company + 1))
      (pickedLen + 1) rest

/-- The company-quota filter applied to the ranked items. -/
def floodControl (items : List (Int × Job)) : List (Int × Job) :=
  floodGo [] 0 items

/-- The sort key of `items.sort`:
`(-score, company.lower(), title.lower())`, compared lexicographically. -/
def jobSortKey (it : Int × Job) : Int ×ₗ (Str ×ₗ Str) :=
  toLex (-it.1, toLex (lowerStr it.2.company, lowerStr it.2.title))

/-- `items.sort(key=lambda x: (-x[0], x[1].company.lower(), x[1].title.lower()))`
(a stable sort by the key, modelled by a stable insertion sort). -/
def sortItems (items : List (Int × Job)) : List (Int × Job) :=
  items.insertionSort (fun a b => jobSortKey a ≤ jobSortKey b)

/-- The per-job filter of `main`'s collection loop: skip fingerprints
already seen, stale postings and postings with a negative score. -/
def keepJob (seen : Store) (cutoff : Int) (job : Job) : Option (Int × Job) :=
  if (seenLookup seen job.uid).isSome then none
  else if !isRecent job cutoff then none
  else if score_job job < 0 then none
  else some (score_job job, job)

/-- The notified (selected) output of one pipeline run: filter, rank,
apply flood control. -/
def runNotified (seen : Store) (jobs : List Job) (cutoff : Int) : List (Int × Job) :=
  floodControl (sortItems (jobs.filterMap (keepJob seen cutoff)))

/-- The store one pipeline run persists: the loaded store with every
notified fingerprint marked at time `ts`, then pruned. -/
def runSavedStore (seen : Store) (jobs : List Job) (cutoff : Int) (ts : ℚ) : Store :=
  pruneSeen (markAll seen (runNotified seen jobs cutoff) ts)

/-- One pipeline run (the pure core of `main`): the notified list
together with the saved store. -/
def runOnce (seen : Store) (jobs : List Job) (cutoff : Int) (ts : ℚ) :
    List (Int × Job) × Store :=
  (runNotified seen jobs cutoff, runSavedStore seen jobs cutoff ts)

/-! ## Lemmas about the keyword passes -/

theorem keywordPass_cons (w : Int) (k : Str) (ks : List Str) (t d : Str) (s : Int) :
    keywordPass w (k :: ks) t d s
      = keywordPass w ks t d (if containsStr t k || containsStr d k then s + w else s) := rfl

/-- Each entry of the keyword list contributes exactly `w` when it
matches and `0` otherwise, independently of how often the keyword
occurs in the text. -/
theorem keywordPass_eq_countP (w : Int) (kws : List Str) (t d : Str) (s : Int) :
    keywordPass w kws t d s
      = s + w * ((kws.countP fun kw => containsStr t kw || containsStr d kw) : ℤ) := by
  induction kws generalizing s with
  | nil => simp [keywordPass]
  | cons k ks ih =>
    rw [keywordPass_cons, ih, List.countP_cons]
    by_cases h : (containsStr t k || containsStr d k) = true
    · simp only [h, if_true]
      push_cast
      ring
    · simp only [h, if_false]
      push_cast
      ring

theorem le_keywordPass (w : Int) (hw : 0 ≤ w) (kws : List Str) (t d : Str) (s : Int) :
    s ≤ keywordPass w kws t d s := by
  rw [keywordPass_eq_countP]
  have : (0 : ℤ) ≤ w * ((kws.countP fun kw => containsStr t kw || containsStr d kw) : ℤ) :=
    mul_nonneg hw (by positivity)
  omega

theorem le_companyBoost (c : Str) (s : Int) : s ≤ companyBoost c s := by
  unfold companyBoost
  split <;> omega

theorem titleNudges_ge (t : Str) (s : Int) : s - 2 ≤ titleNudges t s := by
  unfold titleNudges nudgeIntern nudgeSenior nudgeManager
  split_ifs <;> omega

theorem location_priority_cases (loc : Str) :
    location_priority loc = -999 ∨ 5 ≤ location_priority loc := by
  unfold location_priority
  split_ifs <;> simp

/-! ## Lemmas about the company-quota filter -/

theorem countFor_setCount (counts : List (Str × Nat)) (k : Str) (n : Nat) (c : Str) :
    countFor (setCount counts k n) c = if k = c then n else countFor counts c := by
  induction counts with
  | nil => by_cases h : k = c <;> simp [setCount, countFor, h]
  | cons p r ih =>
    obtain ⟨a, b⟩ := p
    by_cases hak : a = k
    · subst hak
      by_cases hac : a = c <;> simp [setCount, countFor, hac]
    · by_cases hac : a = c
      · have hkc : ¬ k = c := fun h => hak (hac.trans h.symm)
        have hck : ¬ c = k := fun h => hkc h.symm
        simp [setCount, countFor, hak, hac, hkc, hck]
      · simp [setCount, countFor, hak, hac, ih]

theorem floodGo_length_le (l : List (Int × Job)) :
    ∀ counts n, n < MAX_EMAIL_ITEMS → (floodGo counts n l).length + n ≤ MAX_EMAIL_ITEMS := by
  induction l with
  | nil =>
    intro counts n hn
    simp only [floodGo, List.length_nil]
    omega
  | cons it rest ih =>
    intro counts n hn
    unfold floodGo
    split_ifs with h1 h2
    · exact ih counts n hn
    · simp only [List.length_singleton]
      omega
    · have := ih (setCount counts it.2.company (countFor counts it.2.company + 1))
        (n + 1) (by omega)
      simp only [List.length_cons]
      omega

theorem floodGo_countP_le (l : List (Int × Job)) :
    ∀ counts n (C : Str), countFor counts C ≤ capFor C →
      countFor counts C
        + (floodGo counts n l).countP (fun it => decide (it.2.company = C)) ≤ capFor C := by
  induction l with
  | nil =>
    intro counts n C h
    simp only [floodGo, List.countP_nil]
    omega
  | cons it rest ih =>
    intro counts n C h
    unfold floodGo
    split_ifs with h1 h2
    · exact ih counts n C h
    · simp only [List.countP_cons, List.countP_nil]
      by_cases hc : it.2.company = C
      · rw [hc] at h1
        rw [if_pos (by simp [hc])]
        omega
      · rw [if_neg (by simp [hc])]
        omega
    · simp only [List.countP_cons]
      by_cases hc : it.2.company = C
      · have hlt : countFor counts C < capFor C := by rw [← hc]; omega
        have hset : countFor (setCount counts it.2.company
            (countFor counts it.2.company + 1)) C = countFor counts C + 1 := by
          rw [countFor_setCount, if_pos hc, hc]
        have hih := ih (setCount counts it.2.company (countFor counts it.2.company + 1))
          (n + 1) C (by rw [hset]; omega)
        rw [hset] at hih
        rw [if_pos (by simp [hc])]
        omega
      · have hset : countFor (setCount counts it.2.company
            (countFor counts it.2.company + 1)) C = countFor counts C := by
          rw [countFor_setCount, if_neg hc]
        have hih := ih (setCount counts it.2.company (countFor counts it.2.company + 1))
          (n + 1) C (by rw [hset]; exact h)
        rw [hset] at hih
        rw [if_neg (by simp [hc])]
        omega

theorem mem_floodGo (l : List (Int × Job)) :
    ∀ counts n x, x ∈ floodGo counts n l → x ∈ l := by
  induction l with
  | nil =>
    intro counts n x hx
    simp [floodGo] at hx
  | cons it rest ih =>
    intro counts n x hx
    unfold floodGo at hx
    split_ifs at hx with h1 h2
    · exact List.mem_cons_of_mem _ (ih counts n x hx)
    · rw [List.mem_singleton] at hx
      subst hx
      exact List.mem_cons_self _ _
    · rcases List.mem_cons.mp hx with h | h
      · subst h
        exact List.mem_cons_self _ _
      · exact List.mem_cons_of_mem _ (ih _ (n + 1) x h)

/-! ## Lemmas about the ranking sort and the seen-store sort -/

theorem storeDescending_pairwise (s : Store) :
    (storeDescending s).Pairwise (fun a b => b.2 ≤ a.2) := by
  haveI hto : IsTotal (Str × ℚ) (fun a b => b.2 ≤ a.2) := ⟨fun a b => le_total b.2 a.2⟩
  haveI htr : IsTrans (Str × ℚ) (fun a b => b.2 ≤ a.2) :=
    ⟨fun _ _ _ h1 h2 => le_trans h2 h1⟩
  exact List.sorted_insertionSort _ s

theorem storeDescending_perm (s : Store) : List.Perm (storeDescending s) s :=
  List.perm_insertionSort _ s

theorem jobSortKey_le_iff (a b : Int × Job) :
    jobSortKey a ≤ jobSortKey b ↔
      b.1 < a.1 ∨ (a.1 = b.1 ∧ (lowerStr a.2.company < lowerStr b.2.company ∨
        (lowerStr a.2.company = lowerStr b.2.company ∧
          lowerStr a.2.title ≤ lowerStr b.2.title))) := by
  unfold jobSortKey
  rw [Prod.Lex.le_iff, Prod.Lex.le_iff]
  simp only [neg_lt_neg_iff, neg_inj]

/-! ## C1 — keyword weights are per list entry, and `KW_HIGH` holds
`"investment bank"` twice -/

/--
C1 counterexample: on the title "investment bank" (and an empty
snippet), the high-keyword pass adds 20 — the fixed weight twice — even
though only one distinct keyword of `KW_HIGH` matches the text, because
`"investment bank"` occurs twice in `KW_HIGH`. End to end, `score_job`
returns 28 (missing-location tier 8 + 20) where an at-most-once-per-
keyword rule would give 18. This refutes the claim that the high weight
is added at most once per keyword even when the keyword occurs more
than once in the keyword list.
-/
theorem claim1_counterexample :
    keywordPass 10 KW_HIGH (lit "investment bank") (lit "") 0 = 20 ∧
    ((KW_HIGH.filter fun kw =>
        containsStr (lit "investment bank") kw || containsStr (lit "") kw).dedup.length = 1) ∧
    score_job ⟨lit "x", lit "", lit "Investment Bank", lit "", none, lit "u", lit ""⟩ = 28 ∧
    ¬ ((20 : Int) ≤ 10 * 1) := by
  refine ⟨by decide, by decide, by decide, by decide⟩

/--
C1 (amended): in each scoring pass a keyword list entry contributes its
fixed weight (10 for `KW_HIGH`, 5 for `KW_MED`) at most once — the pass
total is exactly the weight times the number of matching entries of the
list, so a keyword appearing multiple times in the title/snippet text
still counts once per list entry. `KW_MED` has no duplicate entries, so
each medium keyword contributes at most 5; `KW_HIGH` lists
`"investment bank"` twice, so that keyword contributes 20.
-/
theorem claim1_keyword_weight_amended (t d : Str) (s : Int) :
    keywordPass 10 KW_HIGH t d s
      = s + 10 * ((KW_HIGH.countP fun kw => containsStr t kw || containsStr d kw) : ℤ) ∧
    keywordPass 5 KW_MED t d s
      = s + 5 * ((KW_MED.countP fun kw => containsStr t kw || containsStr d kw) : ℤ) ∧
    KW_MED.Nodup ∧
    KW_HIGH.count (lit "investment bank") = 2 := by
  exact ⟨keywordPass_eq_countP _ _ _ _ _, keywordPass_eq_countP _ _ _ _ _,
    by decide, by decide⟩

/-! ## C2 — substring matching of "ca" misclassifies "Chicago" -/

/--
C2: the code violates the claim. `location_priority "Chicago"` returns
20, the California tier, because `CALIFORNIA_KEYWORDS` contains the bare
string "ca" and is matched by substring search (`k in loc`), so the
letter sequence "ca" inside "chicago" triggers the California branch —
exactly the false positive the specification's edge-case policy forbids.
(The `US_STATE_ABBR` scan does use a word-boundary regex, but the
California check runs on raw substrings.)
-/
theorem claim2_chicago_misclassified :
    location_priority (lit "Chicago") = 20 ∧
    (CALIFORNIA_KEYWORDS.any fun k => containsStr (norm (lit "Chicago")) k) = true ∧
    (US_STATE_ABBR.any fun st => stateHit st (norm (lit "Chicago"))) = false := by
  refine ⟨by decide, by decide, by decide⟩

/-! ## C3 — remote without US indicator gets the remote tier, not the
baseline tier -/

/--
C3 counterexample: "Remote - Worldwide" contains a remote indicator but
no US and no California indicator, yet `location_priority` returns 12 —
the remote tier, the same value given to remote+US locations — not the
baseline tier 5 that a US indicator alone ("United States") yields.
-/
theorem claim3_counterexample :
    location_priority (lit "Remote - Worldwide") = 12 ∧
    location_priority (lit "United States") = 5 ∧
    (12 : Int) ≠ 5 := by
  refine ⟨by decide, by decide, by decide⟩

/--
C3 (amended): a location whose normalized text contains "remote" and no
California indicator is assigned the remote tier 12 — regardless of
whether any US indicator is present. Remote-only locations are accepted,
but at the remote+US tier, not at the baseline accepted tier 5.
-/
theorem claim3_remote_tier_amended (loc : Str)
    (hremote : containsStr (norm loc) (lit "remote") = true)
    (hca : isCA (norm loc) = false) :
    location_priority loc = 12 := by
  have hne : ¬ norm loc = [] := by
    intro h
    rw [h] at hremote
    simp [containsStr, lit] at hremote
  unfold location_priority
  rw [if_neg hne, if_neg (by simp [hremote]), if_neg (by simp [hca]), if_pos hremote]

/-- C3 witness: the amended claim at the concrete input "Remote - Worldwide". -/
theorem claim3_remote_tier_witness :
    location_priority (lit "Remote - Worldwide") = 12 :=
  claim3_remote_tier_amended (lit "Remote - Worldwide") (by decide) (by decide)

/-! ## C5 — flood control caps -/

/--
C5: for every input sequence of scored postings and every company `C`,
the selected output of the company-quota filter contains at most
`capFor C` postings of company `C` — `C`'s entry in `COMPANY_CAPS` if
present, else `MAX_PER_COMPANY_DEFAULT` — and at most `MAX_EMAIL_ITEMS`
postings in total.
-/
theorem claim5_flood_control (items : List (Int × Job)) (C : Str) :
    ((floodControl items).countP fun it => decide (it.2.company = C)) ≤ capFor C ∧
    (floodControl items).length ≤ MAX_EMAIL_ITEMS := by
  constructor
  · have h := floodGo_countP_le items [] 0 C (by simp [countFor])
    simpa [floodControl, countFor] using h
  · have h := floodGo_length_le items [] 0 (by norm_num [MAX_EMAIL_ITEMS])
    simpa [floodControl] using h

/-! ## C7 — pruning postcondition -/

/--
C7: after the prune step with maximum size 25000, the store holds at
most 25000 entries; a store already within the limit is left unchanged;
and every retained entry's timestamp is at least every dropped entry's
timestamp (the dropped entries being the part of the
timestamp-descending ordering that is truncated away).
-/
theorem claim7_prune_postcondition (s : Store) :
    (pruneSeen s).length ≤ 25000 ∧
    (s.length ≤ 25000 → pruneSeen s = s) ∧
    (∀ x ∈ pruneSeen s, ∀ y ∈ (storeDescending s).drop 25000, y.2 ≤ x.2) := by
  refine ⟨?_, ?_, ?_⟩
  · unfold pruneSeen
    split_ifs with h
    · exact List.length_take_le 25000 (storeDescending s)
    · omega
  · intro h
    unfold pruneSeen
    rw [if_neg (by omega)]
  · intro x hx y hy
    unfold pruneSeen at hx
    split_ifs at hx with h
    · have hp := storeDescending_pairwise s
      rw [← List.take_append_drop 25000 (storeDescending s)] at hp
      exact (List.pairwise_append.mp hp).2.2 x hx y hy
    · have hlen : (storeDescending s).length = s.length :=
        (storeDescending_perm s).length_eq
      have hnil : (storeDescending s).drop 25000 = [] :=
        List.drop_eq_nil_of_le (by omega)
      rw [hnil] at hy
      simp at hy

/-- C7 witness: a two-entry store is within the limit and survives
pruning unchanged. -/
theorem claim7_prune_witness :
    pruneSeen [(lit "a", (3 : ℚ)), (lit "b", (1 : ℚ))]
      = [(lit "a", (3 : ℚ)), (lit "b", (1 : ℚ))] :=
  (claim7_prune_postcondition _).2.1 (by decide)

/-! ## C8 — ranking order -/

/--
C8: the ranked sequence handed to flood control is a permutation of the
accepted items, sorted by descending score, with ties broken by
case-insensitive (lowercased) company name ascending, then
case-insensitive title ascending.
-/
theorem claim8_ranking_order (items : List (Int × Job)) :
    List.Perm (sortItems items) items ∧
    (sortItems items).Pairwise (fun a b =>
      b.1 < a.1 ∨ (a.1 = b.1 ∧ (lowerStr a.2.company < lowerStr b.2.company ∨
        (lowerStr a.2.company = lowerStr b.2.company ∧
          lowerStr a.2.title ≤ lowerStr b.2.title)))) := by
  haveI hto : IsTotal (Int × Job) (fun a b => jobSortKey a ≤ jobSortKey b) :=
    ⟨fun a b => le_total (jobSortKey a) (jobSortKey b)⟩
  haveI htr : IsTrans (Int × Job) (fun a b => jobSortKey a ≤ jobSortKey b) :=
    ⟨fun _ _ _ h1 h2 => le_trans h1 h2⟩
  constructor
  · exact List.perm_insertionSort _ items
  · exact (List.sorted_insertionSort _ items).imp (fun hab => (jobSortKey_le_iff _ _).mp hab)

/-! ## C6 — negative keywords short-circuit to the reject sentinel -/

/--
C6: any posting whose normalized title or normalized snippet contains a
negative keyword as a substring is scored with the reject sentinel −999,
whatever its location, company or positive keyword matches.
-/
theorem claim6_negative_keyword_rejects (job : Job)
    (h : ∃ bad ∈ NEGATIVE,
      containsStr (norm job.title) bad = true ∨
      containsStr (norm job.description_snippet) bad = true) :
    score_job job = -999 := by
  unfold score_job
  rw [if_pos]
  rw [List.any_eq_true]
  obtain ⟨bad, hmem, hc⟩ := h
  refine ⟨bad, hmem, ?_⟩
  rcases hc with hc | hc <;> simp [hc]

/-- C6 witness: a "Warehouse Associate" posting at a target company in a
prime location is still rejected. -/
theorem claim6_negative_keyword_witness :
    score_job ⟨lit "greenhouse", lit "Google", lit "Warehouse Associate",
      lit "San Francisco, CA", none, lit "u", lit "finance strategy"⟩ = -999 :=
  claim6_negative_keyword_rejects _ (by decide)

/-! ## Lemmas about the seen store -/

theorem seenLookup_setKey (st : Store) (k : Str) (v : ℚ) (u : Str) :
    seenLookup (setKey st k v) u = if k = u then some v else seenLookup st u := by
  induction st with
  | nil => simp [setKey, seenLookup]
  | cons p r ih =>
    obtain ⟨a, b⟩ := p
    by_cases hak : a = k
    · subst hak
      by_cases hau : a = u <;> simp [setKey, seenLookup, hau]
    · by_cases hau : a = u
      · have hku : ¬ k = u := fun h => hak (hau.trans h.symm)
        have huk : ¬ u = k := fun h => hku h.symm
        simp [setKey, seenLookup, hak, hau, hku, huk]
      · simp [setKey, seenLookup, hak, hau, ih]

theorem seenLookup_markAll (l : List (Int × Job)) :
    ∀ (st : Store) (ts : ℚ) (u : Str),
      seenLookup (markAll st l ts) u
        = if ∃ it ∈ l, it.2.uid = u then some ts else seenLookup st u := by
  induction l with
  | nil => simp [markAll]
  | cons it l ih =>
    intro st ts u
    have hstep : markAll st (it :: l) ts = markAll (setKey st it.2.uid ts) l ts := rfl
    rw [hstep, ih]
    by_cases h1 : ∃ x ∈ l, x.2.uid = u
    · rw [if_pos h1, if_pos (by obtain ⟨x, hx, he⟩ := h1; exact ⟨x, List.mem_cons_of_mem _ hx, he⟩)]
    · rw [if_neg h1, seenLookup_setKey]
      by_cases h2 : it.2.uid = u
      · rw [if_pos h2, if_pos ⟨it, List.mem_cons_self _ _, h2⟩]
      · rw [if_neg h2, if_neg ?_]
        rintro ⟨x, hx, he⟩
        rcases List.mem_cons.mp hx with rfl | hxl
        · exact h2 he
        · exact h1 ⟨x, hxl, he⟩

theorem mem_of_seenLookup_eq_some (st : Store) (u : Str) (v : ℚ)
    (h : seenLookup st u = some v) : (u, v) ∈ st := by
  induction st with
  | nil => simp [seenLookup] at h
  | cons p r ih =>
    obtain ⟨a, b⟩ := p
    by_cases hau : a = u
    · subst hau
      rw [seenLookup, if_pos rfl] at h
      obtain rfl : b = v := by injection h
      exact List.mem_cons_self _ _
    · rw [seenLookup, if_neg hau] at h
      exact List.mem_cons_of_mem _ (ih h)

theorem seenLookup_ne_none_of_mem (st : Store) (u : Str) (v : ℚ)
    (h : (u, v) ∈ st) : seenLookup st u ≠ none := by
  induction st with
  | nil => simp at h
  | cons p r ih =>
    obtain ⟨a, b⟩ := p
    by_cases hau : a = u
    · rw [seenLookup, if_pos hau]
      simp
    · rw [seenLookup, if_neg hau]
      rcases List.mem_cons.mp h with he | hr
      · exact absurd (congrArg Prod.fst he).symm hau
      · exact ih hr

theorem countP_setKey_le (st : Store) (k : Str) (v : ℚ) (p : Str × ℚ → Bool) :
    (setKey st k v).countP p ≤ st.countP p + 1 := by
  induction st with
  | nil =>
    simp only [setKey, List.countP_cons, List.countP_nil]
    split <;> omega
  | cons q r ih =>
    obtain ⟨a, b⟩ := q
    by_cases hak : a = k
    · simp only [setKey, if_pos hak, List.countP_cons]
      have h1 : (if p (a, v) then 1 else 0) ≤ 1 := by split <;> omega
      have h2 : (0 : Nat) ≤ if p (a, b) then 1 else 0 := Nat.zero_le _
      omega
    · simp only [setKey, if_neg hak, List.countP_cons]
      omega

theorem countP_markAll_le (l : List (Int × Job)) :
    ∀ (st : Store) (ts : ℚ) (p : Str × ℚ → Bool),
      (markAll st l ts).countP p ≤ st.countP p + l.length := by
  induction l with
  | nil =>
    intro st ts p
    simp [markAll]
  | cons it l ih =>
    intro st ts p
    have hstep : markAll st (it :: l) ts = markAll (setKey st it.2.uid ts) l ts := rfl
    rw [hstep]
    have h1 := ih (setKey st it.2.uid ts) ts p
    have h2 := countP_setKey_le st it.2.uid ts p
    simp only [List.length_cons]
    omega

/-- In a timestamp-descending store, an entry is among the first `k`
entries as soon as at most `k` entries have a timestamp at least its
own. -/
theorem mem_take_of_sorted_countP (l : Store) (x : Str × ℚ) :
    ∀ k : Nat, x ∈ l → l.Pairwise (fun a b => b.2 ≤ a.2) →
      l.countP (fun e => decide (x.2 ≤ e.2)) ≤ k → x ∈ l.take k := by
  induction l with
  | nil =>
    intro k hx
    simp at hx
  | cons a r ih =>
    intro k hx hs hc
    have hpa : (decide (x.2 ≤ a.2)) = true := by
      rcases List.mem_cons.mp hx with rfl | hxr
      · simp
      · simpa using (List.pairwise_cons.mp hs).1 x hxr
    rw [List.countP_cons, hpa, if_pos rfl] at hc
    match k with
    | 0 => omega
    | k + 1 =>
      rw [List.take_succ_cons]
      rcases List.mem_cons.mp hx with rfl | hxr
      · exact List.mem_cons_self _ _
      · exact List.mem_cons_of_mem _
          (ih k hxr (List.pairwise_cons.mp hs).2 (by omega))

/-- Dissecting the per-job filter: a kept item was not in the seen store. -/
theorem keepJob_some (seen : Store) (cutoff : Int) (job : Job) (it : Int × Job)
    (h : keepJob seen cutoff job = some it) :
    seenLookup seen job.uid = none ∧ it.2 = job := by
  unfold keepJob at h
  split_ifs at h with h1 h2 h3
  · refine ⟨?_, ?_⟩
    · cases ho : seenLookup seen job.uid
      · rfl
      · rw [ho] at h1
        simp at h1
    · injection h with h
      rw [← h]

/-- Every notified item of a run was kept by the per-job filter, so its
fingerprint was absent from the loaded store. -/
theorem runNotified_not_seen (seen : Store) (jobs : List Job) (cutoff : Int)
    (it : Int × Job) (h : it ∈ runNotified seen jobs cutoff) :
    seenLookup seen it.2.uid = none := by
  unfold runNotified floodControl at h
  have h1 : it ∈ sortItems (jobs.filterMap (keepJob seen cutoff)) :=
    mem_floodGo _ _ _ _ h
  have h2 : it ∈ jobs.filterMap (keepJob seen cutoff) := by
    unfold sortItems at h1
    exact (List.perm_insertionSort _ _).mem_iff.mp h1
  obtain ⟨job, _, hkeep⟩ := List.mem_filterMap.mp h2
  obtain ⟨hnone, hjob⟩ := keepJob_some _ _ _ _ hkeep
  rw [hjob]
  exact hnone

theorem runNotified_length_le (seen : Store) (jobs : List Job) (cutoff : Int) :
    (runNotified seen jobs cutoff).length ≤ MAX_EMAIL_ITEMS := by
  have h := floodGo_length_le (sortItems (jobs.filterMap (keepJob seen cutoff))) [] 0
    (by norm_num [MAX_EMAIL_ITEMS])
  unfold runNotified floodControl
  omega

/-- A fingerprint notified in a run survives into the saved (pruned)
store, provided every timestamp already in the loaded store predates the
run's marking time. -/
theorem runSavedStore_keeps_notified (seen : Store) (jobs : List Job)
    (cutoff : Int) (ts : ℚ) (hclock : ∀ p ∈ seen, p.2 < ts)
    (it : Int × Job) (h : it ∈ runNotified seen jobs cutoff) :
    seenLookup (runSavedStore seen jobs cutoff ts) it.2.uid ≠ none := by
  set m := markAll seen (runNotified seen jobs cutoff) ts with hm
  have hlook : seenLookup m it.2.uid = some ts := by
    rw [hm, seenLookup_markAll, if_pos ⟨it, h, rfl⟩]
  have hmem : (it.2.uid, ts) ∈ m := mem_of_seenLookup_eq_some _ _ _ hlook
  have hmem' : (it.2.uid, ts) ∈ runSavedStore seen jobs cutoff ts := by
    unfold runSavedStore pruneSeen
    rw [← hm]
    split_ifs with hlen
    · apply mem_take_of_sorted_countP _ _ 25000
        ((storeDescending_perm m).mem_iff.mpr hmem)
        (storeDescending_pairwise m)
      rw [(storeDescending_perm m).countP_eq]
      show List.countP (fun e => decide ((ts : ℚ) ≤ e.2)) m ≤ 25000
      have h1 := countP_markAll_le (runNotified seen jobs cutoff) seen ts
        (fun e => decide ((ts : ℚ) ≤ e.2))
      have h2 : seen.countP (fun e => decide ((ts : ℚ) ≤ e.2)) = 0 := by
        rw [List.countP_eq_zero]
        intro p hp
        simpa using not_le.mpr (hclock p hp)
      have h3 := runNotified_length_le seen jobs cutoff
      rw [← hm] at h1
      have : MAX_EMAIL_ITEMS = 120 := rfl
      omega
    · exact hmem
  exact seenLookup_ne_none_of_mem _ _ _ hmem'

/-! ## C4 — deduplication across two runs sharing the persisted store -/

/--
C4: if a fingerprint `u` is notified by the first of two successive runs
that share the persisted seen store (the second run loads exactly what
the first saved), then `u` is present in the store the second run loads,
and the second run notifies no posting with fingerprint `u` — so a
posting appears in the notified output of at most one of the two runs.
The clock hypothesis (`every timestamp in the first run's loaded store
predates the first run's marking time`) reflects that the loaded store
was written by earlier runs.
-/
theorem claim4_dedup_across_runs (store0 : Store) (jobs1 jobs2 : List Job)
    (cutoff1 cutoff2 : Int) (ts1 ts2 : ℚ) (u : Str)
    (hclock : ∀ p ∈ store0, p.2 < ts1)
    (h1 : ∃ it ∈ (runOnce store0 jobs1 cutoff1 ts1).1, it.2.uid = u) :
    seenLookup (runOnce store0 jobs1 cutoff1 ts1).2 u ≠ none ∧
    ¬ ∃ it ∈ (runOnce (runOnce store0 jobs1 cutoff1 ts1).2 jobs2 cutoff2 ts2).1,
        it.2.uid = u := by
  obtain ⟨it1, hmem1, hu1⟩ := h1
  have hin : seenLookup (runOnce store0 jobs1 cutoff1 ts1).2 u ≠ none := by
    have := runSavedStore_keeps_notified store0 jobs1 cutoff1 ts1 hclock it1 hmem1
    rw [hu1] at this
    exact this
  refine ⟨hin, ?_⟩
  rintro ⟨it2, hmem2, hu2⟩
  have hskip := runNotified_not_seen (runOnce store0 jobs1 cutoff1 ts1).2 jobs2 cutoff2
    it2 hmem2
  rw [hu2] at hskip
  exact hin hskip

/-- C4 witness: a posting notified by an empty-store run is never
notified again by a second run over the saved store. -/
theorem claim4_dedup_witness :
    seenLookup
      (runOnce [] [⟨lit "src", lit "Co", lit "Finance Manager", lit "", none,
        lit "url", lit ""⟩] 0 1).2
      (Job.uid ⟨lit "src", lit "Co", lit "Finance Manager", lit "", none,
        lit "url", lit ""⟩) ≠ none ∧
    ¬ ∃ it ∈ (runOnce
        (runOnce [] [⟨lit "src", lit "Co", lit "Finance Manager", lit "", none,
          lit "url", lit ""⟩] 0 1).2
        [⟨lit "src", lit "Co", lit "Finance Manager", lit "", none,
          lit "url", lit ""⟩] 0 2).1,
      it.2.uid = Job.uid ⟨lit "src", lit "Co", lit "Finance Manager", lit "", none,
        lit "url", lit ""⟩ :=
  claim4_dedup_across_runs [] _ _ 0 0 1 2 _ (by simp) (by decide)

/-! ## Lemmas about the normalizer -/

theorem lowerChar_lowerChar (c : Nat) : lowerChar (lowerChar c) = lowerChar c := by
  unfold lowerChar
  split_ifs <;> omega

theorem isSpace_lowerChar (c : Nat) : isSpace (lowerChar c) = isSpace c := by
  unfold lowerChar isSpace
  split_ifs with h
  · rw [decide_eq_decide]
    omega
  · rfl

theorem lowerChar_32 : lowerChar 32 = 32 := by decide

theorem lowerStr_idem (s : Str) : lowerStr (lowerStr s) = lowerStr s := by
  simp only [lowerStr, List.map_map]
  exact List.map_congr_left fun x _ => lowerChar_lowerChar x

theorem collapse_cons_ne_nil (r : Str) : ∀ c : Nat, collapse (c :: r) ≠ [] := by
  induction r with
  | nil => intro c; simp [collapse]
  | cons c2 r2 ih =>
    intro c
    simp only [collapse]
    split_ifs
    · exact ih c2
    · simp
    · simp

theorem collapse_cons_of_not_space (c : Nat) (r : Str) (h : isSpace c = false) :
    collapse (c :: r) = c :: collapse r := by
  cases r with
  | nil => simp [collapse, h]
  | cons c2 r2 => simp [collapse, h]

theorem mem_collapse (l : Str) :
    ∀ x : Nat, x ∈ collapse l → x = 32 ∨ (x ∈ l ∧ isSpace x = false) := by
  induction l with
  | nil =>
    intro x hx
    simp [collapse] at hx
  | cons c r ih =>
    intro x hx
    cases r with
    | nil =>
      rw [show collapse [c] = [if isSpace c then 32 else c] from rfl,
        List.mem_singleton] at hx
      by_cases h : isSpace c
      · rw [if_pos h] at hx
        exact Or.inl hx
      · rw [if_neg h] at hx
        subst hx
        exact Or.inr ⟨List.mem_cons_self _ _, by simpa using h⟩
    | cons c2 r2 =>
      simp only [collapse] at hx
      split_ifs at hx with hss hspc
      · rcases ih x hx with h32 | ⟨hmem, hsp⟩
        · exact Or.inl h32
        · exact Or.inr ⟨List.mem_cons_of_mem _ hmem, hsp⟩
      · rcases List.mem_cons.mp hx with hx1 | hx2
        · exact Or.inl hx1
        · rcases ih x hx2 with h32 | ⟨hmem, hsp⟩
          · exact Or.inl h32
          · exact Or.inr ⟨List.mem_cons_of_mem _ hmem, hsp⟩
      · rcases List.mem_cons.mp hx with hx1 | hx2
        · subst hx1
          exact Or.inr ⟨List.mem_cons_self _ _, by simpa using hspc⟩
        · rcases ih x hx2 with h32 | ⟨hmem, hsp⟩
          · exact Or.inl h32
          · exact Or.inr ⟨List.mem_cons_of_mem _ hmem, hsp⟩

theorem chain'_collapse (l : Str) :
    (collapse l).Chain' (fun a b => isSpace a = false ∨ isSpace b = false) := by
  induction l with
  | nil => simp [collapse]
  | cons c r ih =>
    cases r with
    | nil =>
      exact List.chain'_singleton _
    | cons c2 r2 =>
      simp only [collapse]
      split_ifs with hss hspc
      · exact ih
      · have hc2 : isSpace c2 = false := by
          cases h2 : isSpace c2
          · rfl
          · exact absurd (by rw [hspc, h2]; rfl) hss
        rw [List.chain'_cons']
        refine ⟨?_, ih⟩
        intro y hy
        right
        rw [collapse_cons_of_not_space c2 r2 hc2] at hy
        simp only [List.head?_cons, Option.mem_some_iff] at hy
        rw [← hy]
        exact hc2
      · rw [List.chain'_cons']
        refine ⟨?_, ih⟩
        intro y hy
        left
        simpa using hspc

theorem collapse_eq_self (l : Str)
    (hch : l.Chain' (fun a b => isSpace a = false ∨ isSpace b = false))
    (hsp : ∀ x ∈ l, isSpace x = true → x = 32) : collapse l = l := by
  induction l with
  | nil => rfl
  | cons c r ih =>
    cases r with
    | nil =>
      show [if isSpace c then 32 else c] = [c]
      by_cases h : isSpace c = true
      · rw [if_pos h, hsp c (List.mem_singleton_self c) h]
      · rw [if_neg h]
    | cons c2 r2 =>
      obtain ⟨hcc, hch2⟩ := List.chain'_cons.mp hch
      have hss : ¬ (isSpace c && isSpace c2) = true := by
        rcases hcc with h | h <;> simp [h]
      simp only [collapse]
      rw [if_neg hss, ih hch2 (fun x hx hs => hsp x (List.mem_cons_of_mem _ hx) hs)]
      by_cases h : isSpace c = true
      · rw [if_pos h, hsp c (List.mem_cons_self _ _) h]
      · rw [if_neg h]

theorem collapse_idem (l : Str) : collapse (collapse l) = collapse l := by
  apply collapse_eq_self
  · exact chain'_collapse l
  · intro x hx hs
    rcases mem_collapse l x hx with h | ⟨_, hf⟩
    · exact h
    · rw [hf] at hs
      cases hs

theorem lowerStr_collapse (l : Str) : lowerStr (collapse l) = collapse (lowerStr l) := by
  induction l with
  | nil => rfl
  | cons c r ih =>
    cases r with
    | nil =>
      show [lowerChar (if isSpace c then 32 else c)]
        = [if isSpace (lowerChar c) then 32 else lowerChar c]
      rw [isSpace_lowerChar]
      by_cases h : isSpace c = true
      · rw [if_pos h, if_pos h, lowerChar_32]
      · rw [if_neg h, if_neg h]
    | cons c2 r2 =>
      have hcond : (isSpace (lowerChar c) && isSpace (lowerChar c2))
          = (isSpace c && isSpace c2) := by
        rw [isSpace_lowerChar, isSpace_lowerChar]
      show lowerStr (if isSpace c && isSpace c2 then collapse (c2 :: r2)
          else (if isSpace c then 32 else c) :: collapse (c2 :: r2))
        = collapse (lowerChar c :: lowerChar c2 :: lowerStr r2)
      rw [show collapse (lowerChar c :: lowerChar c2 :: lowerStr r2)
          = if isSpace (lowerChar c) && isSpace (lowerChar c2) then
              collapse (lowerChar c2 :: lowerStr r2)
            else (if isSpace (lowerChar c) then 32 else lowerChar c)
              :: collapse (lowerChar c2 :: lowerStr r2) from rfl, hcond]
      by_cases hss : (isSpace c && isSpace c2) = true
      · rw [if_pos hss, if_pos hss]
        rw [show lowerStr (c2 :: r2) = lowerChar c2 :: lowerStr r2 from rfl] at ih
        exact ih
      · rw [if_neg hss, if_neg hss]
        show lowerChar (if isSpace c then 32 else c) :: lowerStr (collapse (c2 :: r2)) = _
        rw [ih, isSpace_lowerChar,
          show lowerStr (c2 :: r2) = lowerChar c2 :: lowerStr r2 from rfl]
        by_cases h : isSpace c = true
        · rw [if_pos h, if_pos h, lowerChar_32]
        · rw [if_neg h, if_neg h]

theorem dropWhile_head_not (p : Nat → Bool) (l : Str) :
    ∀ c, (l.dropWhile p).head? = some c → p c = false := by
  induction l with
  | nil =>
    intro c hc
    simp at hc
  | cons a t ih =>
    intro c hc
    rw [List.dropWhile_cons] at hc
    split_ifs at hc with h
    · exact ih c hc
    · simp only [List.head?_cons, Option.some_inj] at hc
      rw [← hc]
      simpa using h

theorem dropWhile_getLast_of_ne_nil (p : Nat → Bool) (l : Str)
    (h : l.dropWhile p ≠ []) : (l.dropWhile p).getLast? = l.getLast? := by
  induction l with
  | nil => simp at h
  | cons a t ih =>
    rw [List.dropWhile_cons] at h ⊢
    split_ifs at h ⊢ with hp
    · have ht : t ≠ [] := by
        intro h0
        rw [h0] at h
        simp at h
      rw [ih h]
      cases t with
      | nil => exact absurd rfl ht
      | cons b t2 => rw [List.getLast?_cons_cons]
    · rfl

theorem dropWhile_eq_self_of_head (p : Nat → Bool) (l : Str)
    (h : ∀ c, l.head? = some c → p c = false) : l.dropWhile p = l := by
  cases l with
  | nil => rfl
  | cons a t =>
    rw [List.dropWhile_cons, if_neg (by simp [h a rfl])]

theorem pstrip_eq_self (u : Str)
    (h1 : ∀ c, u.head? = some c → isSpace c = false)
    (h2 : ∀ c, u.getLast? = some c → isSpace c = false) : pstrip u = u := by
  unfold pstrip
  rw [dropWhile_eq_self_of_head isSpace u h1]
  rw [dropWhile_eq_self_of_head isSpace u.reverse
    (fun c hc => h2 c (by rwa [List.head?_reverse] at hc))]
  exact List.reverse_reverse u

theorem pstrip_head_not_space (s : Str) :
    ∀ c, (pstrip s).head? = some c → isSpace c = false := by
  intro c hc
  unfold pstrip at hc
  rw [List.head?_reverse] at hc
  have hne : ((s.dropWhile isSpace).reverse.dropWhile isSpace) ≠ [] := by
    intro h0
    rw [h0] at hc
    simp at hc
  rw [dropWhile_getLast_of_ne_nil isSpace _ hne, List.getLast?_reverse] at hc
  exact dropWhile_head_not isSpace s c hc

theorem pstrip_getLast_not_space (s : Str) :
    ∀ c, (pstrip s).getLast? = some c → isSpace c = false := by
  intro c hc
  unfold pstrip at hc
  rw [List.getLast?_reverse] at hc
  exact dropWhile_head_not isSpace _ c hc

theorem lowerStr_head_not_space (l : Str)
    (h : ∀ c, l.head? = some c → isSpace c = false) :
    ∀ c, (lowerStr l).head? = some c → isSpace c = false := by
  intro c hc
  rw [lowerStr, List.head?_map] at hc
  cases hl : l.head? with
  | none =>
    rw [hl] at hc
    simp at hc
  | some a =>
    rw [hl] at hc
    simp at hc
    rw [← hc, isSpace_lowerChar]
    exact h a hl

theorem lowerStr_getLast_not_space (l : Str)
    (h : ∀ c, l.getLast? = some c → isSpace c = false) :
    ∀ c, (lowerStr l).getLast? = some c → isSpace c = false := by
  intro c hc
  rw [← List.head?_reverse, lowerStr, ← List.map_reverse, List.head?_map] at hc
  cases hl : l.reverse.head? with
  | none =>
    rw [hl] at hc
    simp at hc
  | some a =>
    rw [hl] at hc
    simp at hc
    rw [← hc, isSpace_lowerChar]
    exact h a (by rwa [List.head?_reverse] at hl)

theorem collapse_head_not_space (l : Str)
    (h : ∀ c, l.head? = some c → isSpace c = false) :
    ∀ c, (collapse l).head? = some c → isSpace c = false := by
  cases l with
  | nil =>
    intro c hc
    simp [collapse] at hc
  | cons a t =>
    have ha : isSpace a = false := h a rfl
    rw [collapse_cons_of_not_space a t ha]
    intro c hc
    simp only [List.head?_cons, Option.some_inj] at hc
    rw [← hc]
    exact ha

theorem collapse_getLast_not_space (l : Str)
    (h : ∀ c, l.getLast? = some c → isSpace c = false) :
    ∀ c, (collapse l).getLast? = some c → isSpace c = false := by
  induction l with
  | nil =>
    intro c hc
    simp [collapse] at hc
  | cons a t ih =>
    cases t with
    | nil =>
      intro c hc
      have ha : isSpace a = false := h a (by simp)
      rw [show collapse [a] = [if isSpace a then 32 else a] from rfl,
        if_neg (by simp [ha])] at hc
      simp only [List.getLast?_singleton, Option.some_inj] at hc
      rw [← hc]
      exact ha
    | cons a2 t2 =>
      have htail : ∀ x, (a2 :: t2).getLast? = some x → isSpace x = false := by
        intro x hx
        exact h x (by rw [List.getLast?_cons_cons]; exact hx)
      intro c hc
      simp only [collapse] at hc
      split_ifs at hc with hss hspc
      · exact ih htail c hc
      · obtain ⟨y, ys, hX⟩ := List.exists_cons_of_ne_nil (collapse_cons_ne_nil t2 a2)
        rw [hX, List.getLast?_cons_cons] at hc
        exact ih htail c (by rw [hX]; exact hc)
      · obtain ⟨y, ys, hX⟩ := List.exists_cons_of_ne_nil (collapse_cons_ne_nil t2 a2)
        rw [hX, List.getLast?_cons_cons] at hc
        exact ih htail c (by rw [hX]; exact hc)

theorem norm_head_not_space (s : Str) :
    ∀ c, (norm s).head? = some c → isSpace c = false :=
  collapse_head_not_space _ (lowerStr_head_not_space _ (pstrip_head_not_space s))

theorem norm_getLast_not_space (s : Str) :
    ∀ c, (norm s).getLast? = some c → isSpace c = false :=
  collapse_getLast_not_space _ (lowerStr_getLast_not_space _ (pstrip_getLast_not_space s))

theorem lowerStr_norm (s : Str) : lowerStr (norm s) = norm s := by
  unfold norm
  rw [lowerStr_collapse, lowerStr_idem]

/-- `norm` is idempotent: normalizing an already-normalized string
changes nothing. -/
theorem norm_idem (s : Str) : norm (norm s) = norm s := by
  have h1 : pstrip (norm s) = norm s :=
    pstrip_eq_self _ (norm_head_not_space s) (norm_getLast_not_space s)
  show collapse (lowerStr (pstrip (norm s))) = norm s
  rw [h1, lowerStr_norm]
  show collapse (collapse (lowerStr (pstrip s))) = norm s
  rw [collapse_idem]
  rfl

/-! ## C9 — location classification is invariant under pre-normalization -/

/--
C9: for every location string, classifying the raw string and
classifying its normalization give the same tier:
`location_priority loc = location_priority (norm loc)`. This follows
because `location_priority` normalizes its input first and `norm` is
idempotent, so repeated normalization never changes the assigned tier.
-/
theorem claim9_classification_norm_invariant (loc : Str) :
    location_priority loc = location_priority (norm loc) := by
  unfold location_priority
  rw [norm_idem]

/-! ## C10 — the scorer returns the sentinel or at least 3 -/

/--
C10: `score_job` returns either the reject sentinel −999 or a value of
at least 3 (minimum accepted location tier 5 minus the maximum penalty
2); in particular the sentinel is the only negative value the scorer can
produce, so the pipeline's `score < 0` drop test fires exactly on the
sentinel.
-/
theorem claim10_score_range (job : Job) :
    score_job job = -999 ∨ 3 ≤ score_job job := by
  unfold score_job
  split_ifs with hneg hloc
  · exact Or.inl rfl
  · exact Or.inl rfl
  · right
    have h5 : 5 ≤ location_priority job.location := by
      rcases location_priority_cases job.location with h | h
      · omega
      · exact h
    have h1 := le_companyBoost (norm job.company) (location_priority job.location)
    have h2 := le_keywordPass 10 (by norm_num) KW_HIGH (norm job.title)
      (norm job.description_snippet)
      (companyBoost (norm job.company) (location_priority job.location))
    have h3 := le_keywordPass 5 (by norm_num) KW_MED (norm job.title)
      (norm job.description_snippet)
      (keywordPass 10 KW_HIGH (norm job.title) (norm job.description_snippet)
        (companyBoost (norm job.company) (location_priority job.location)))
    have h4 := titleNudges_ge (norm job.title)
      (keywordPass 5 KW_MED (norm job.title) (norm job.description_snippet)
        (keywordPass 10 KW_HIGH (norm job.title) (norm job.description_snippet)
          (companyBoost (norm job.company) (location_priority job.location))))
    omega

end JobRadar
